import Mathlib

/-!
Verification development for the PR-Radar news-monitoring core (`src/app.py`).

Strings are modelled as `List Char`; timestamps and durations as `Int`
(abstract clock units); the random `uuid` ids as `Nat`.  Stateful Streamlit
session fields become explicit arguments and results.  External library
calls (`html.unescape`, `datetime.strptime`, `urlparse(...).netloc`, clock
reads and uuid draws) are modelled as parameters supplied through an
environment record; everything written in `app.py` itself is translated
directly.
-/

namespace PRRadar

/-- Characters stripped by Python `str.strip()` (ASCII whitespace fragment). -/
def isPySpace (c : Char) : Bool :=
  c == ' ' || c == '\t' || c == '\n' || c == '\x0d' || c == '\x0b' || c == '\x0c'

/-- Python `s.strip()`: drop leading and trailing whitespace. -/
def pyStrip (s : List Char) : List Char :=
  ((s.dropWhile isPySpace).reverse.dropWhile isPySpace).reverse

/-- Python `s.lower()` restricted to the ASCII letters that occur in the alias keys. -/
def lowerAscii (s : List Char) : List Char :=
  s.map Char.toLower

/-- Python `s.replace(" ", "")`: delete every ASCII space. -/
def removeSpaces (s : List Char) : List Char :=
  s.filter (fun c => c != ' ')

/-- Test whether `n` is an initial segment of `h` (needle first). -/
def beginsWith : List Char → List Char → Bool
  | [], _ => true
  | _ :: _, [] => false
  | a :: as, b :: bs => a == b && beginsWith as bs

/-- Python `n in h` on strings: substring containment. -/
def containsSub (n : List Char) : List Char → Bool
  | [] => n.isEmpty
  | c :: t => beginsWith n (c :: t) || containsSub n t

/-- Boolean membership in a list, Python `x in xs` over a set or list. -/
def memB {α : Type} [BEq α] (x : α) (l : List α) : Bool :=
  l.any (fun y => y == x)

/-- Python `host.split(".")`. -/
def splitOnDot : List Char → List (List Char)
  | [] => [[]]
  | c :: rest =>
    let r := splitOnDot rest
    if c == '.' then [] :: r
    else
      match r with
      | [] => [[c]]
      | h :: t => (c :: h) :: t

/-- Python `host.replace("www.", "")`: delete every occurrence of `www.`. -/
def removeWww : List Char → List Char
  | 'w' :: 'w' :: 'w' :: '.' :: rest => removeWww rest
  | c :: rest => c :: removeWww rest
  | [] => []

/-- State machine for `re.sub(r"<[^>]+>", "", text)`.  The first component is
`none` outside a candidate tag and `some buf` after an unclosed `<`, with
`buf` holding the characters read since (reversed).  A `>` with a non-empty
buffer closes and deletes the tag; `<>` matches nothing and is kept; an
unclosed `<` at end of input is kept literally (the buffer then contains no
`>`, so no match can hide inside it). -/
def stripTagsGo : Option (List Char) → List Char → List Char
  | none, [] => []
  | none, c :: r =>
    if c == '<' then stripTagsGo (some []) r
    else c :: stripTagsGo none r
  | some buf, [] => '<' :: buf.reverse
  | some buf, c :: r =>
    if c == '>' then
      if buf.isEmpty then '<' :: '>' :: stripTagsGo none r
      else stripTagsGo none r
    else stripTagsGo (some (c :: buf)) r

/-- Python `re.sub(r"<[^>]+>", "", text)`. -/
def stripTags (s : List Char) : List Char :=
  stripTagsGo none s

/-- Python `re.search(r"[가-힣]", s)`: does `s` contain a Hangul syllable? -/
def hasKorean (s : List Char) : Bool :=
  s.any (fun c => decide (44032 ≤ c.toNat) && decide (c.toNat ≤ 55203))

/-- Negative-signal watch list, in source order (`NEGATIVE_KEYWORDS`). -/
def NEGATIVE_KEYWORDS : List (List Char) :=
  ["논란".data, "소송".data, "구설".data, "불매".data, "갑질".data, "사과문".data]

/-- Press alias table, in source (dict-insertion) order (`PRESS_NAME_MAP`). -/
def PRESS_NAME_MAP : List (List Char × List Char) :=
  [("yna".data, "연합뉴스".data),
   ("yonhap".data, "연합뉴스".data),
   ("mk".data, "매일경제".data),
   ("hankyung".data, "한국경제".data),
   ("mt".data, "머니투데이".data),
   ("sedaily".data, "서울경제".data),
   ("etnews".data, "전자신문".data),
   ("heraldcorp".data, "헤럴드경제".data),
   ("chosunbiz".data, "조선비즈".data),
   ("asiae".data, "아시아경제".data)]

/-- Unknown-publisher sentinel (`"언론사 미상"`). -/
def unknownPress : List Char := "언론사 미상".data

/-- Fallback folder name (`"미분류"`). -/
def fallbackFolder : List Char := "미분류".data

/-- Article record, the dict built by `make_article`. -/
structure Article where
  id : Nat
  title : List Char
  press : List Char
  published_at : Int
  link : List Char
  summary : List Char
  query_keyword : List Char
  is_negative : Bool
  negative_hits : List Char
  collected_at : Int
deriving DecidableEq

/-- Builds the Article dict exactly as `make_article` does; the `uuid` draw
and the `datetime.now()` read are the two explicit extra arguments. -/
def make_article (title press : List Char) (published_at : Int)
    (link summary query_keyword : List Char)
    (freshId : Nat) (nowColl : Int) : Article :=
  let hit_keywords := NEGATIVE_KEYWORDS.filter
    (fun kw => containsSub kw title || containsSub kw summary)
  { id := freshId
    title := title
    press := press
    published_at := published_at
    link := link
    summary := summary
    query_keyword := query_keyword
    is_negative := decide (hit_keywords.length > 0)
    negative_hits := List.intercalate ", ".data hit_keywords
    collected_at := nowColl }

/-- Inbox purge (`purge_old_inbox`): keep the articles with
`collected_at >= now - ttl` (`threshold = datetime.now() - timedelta(days=days)`). -/
def purge_old_inbox (now ttl : Int) (inbox : List Article) : List Article :=
  inbox.filter (fun a => decide (now - ttl ≤ a.collected_at))

/-- Alert record (`{"time": ..., "message": ...}`). -/
structure Alert where
  time : Int
  message : List Char
deriving DecidableEq

/-- Alert message text built by `refresh_alerts` for a negative article. -/
def alertMessage (a : Article) : List Char :=
  "[경고] 부정 키워드(".data ++ a.negative_hits ++ ") 감지 - ".data ++ a.title

/-- Alert derived from one negative article. -/
def toAlert (a : Article) : Alert :=
  { time := a.published_at, message := alertMessage a }

/-- Stable descending insertion by `time`: a new element goes in front of the
first resident whose key it meets or exceeds, as Python
`sorted(key=..., reverse=True)` orders things. -/
def insByTime (x : Alert) : List Alert → List Alert
  | [] => [x]
  | y :: ys => if decide (y.time ≤ x.time) then x :: y :: ys else y :: insByTime x ys

/-- Model of Python `sorted(items, key=lambda x: x["time"], reverse=True)`. -/
def sortByTimeDesc : List Alert → List Alert
  | [] => []
  | x :: xs => insByTime x (sortByTimeDesc xs)

/-- Alert recomputation (`refresh_alerts`) as a pure function of the inbox. -/
def refresh_alerts (inbox : List Article) : List Alert :=
  sortByTimeDesc ((inbox.filter (fun a => a.is_negative)).map toAlert)

/-- Domain guess (`guess_press_from_link`), taking `urlparse(link).netloc` as
its input: lowercase, delete `www.`, return the sentinel on an empty host,
else the second-to-last dot-separated label when there are at least two. -/
def guess_press_from_host (netloc : List Char) : List Char :=
  let host := removeWww (lowerAscii netloc)
  if host.isEmpty then unknownPress
  else
    let parts := splitOnDot host
    if decide (2 ≤ parts.length) then parts.getD (parts.length - 2) []
    else host

/-- The `for key, ko_name in PRESS_NAME_MAP.items()` loop with its
return-on-first-match: first table entry whose key occurs inside `s`. -/
def firstAlias (s : List Char) : List (List Char × List Char) → Option (List Char)
  | [] => none
  | (k, v) :: rest => if containsSub k s then some v else firstAlias s rest

/-- Press normalizer (`normalize_press_name`), with `urlparse(link).netloc`
already extracted and passed as `netloc`. -/
def normalize_press_name (raw_press netloc : List Char) : List Char :=
  let value := pyStrip raw_press
  if !value.isEmpty && hasKorean value then value
  else
    let lower_value := removeSpaces (lowerAscii value)
    match firstAlias lower_value PRESS_NAME_MAP with
    | some ko => ko
    | none =>
      let host_guess := guess_press_from_host netloc
      let lower_host_guess := removeSpaces (lowerAscii host_guess)
      match firstAlias lower_host_guess PRESS_NAME_MAP with
      | some ko => ko
      | none => if !value.isEmpty then value else host_guess

/-- One raw result record from the search-feed JSON; every field is optional,
mirroring `item.get(...)` on the payload dict. -/
structure RawItem where
  originallink : Option (List Char)
  link : Option (List Char)
  title : Option (List Char)
  description : Option (List Char)
  source : Option (List Char)
  pubDate : Option (List Char)

/-- Oracles for the external library calls made during a collection run:
HTML entity decoding (`html.unescape`), timestamp parsing
(`datetime.strptime`, `none` when it raises `ValueError`), host extraction
(`urlparse(link).netloc`), and the uuid / clock reads, indexed by how many
articles the run has created so far. -/
structure Env where
  unescape : List Char → List Char
  strptime : List Char → Option Int
  netlocOf : List Char → List Char
  uuidAt : Nat → Nat
  nowFallbackAt : Nat → Int
  nowCollectAt : Nat → Int

/-- An environment whose oracles are all trivial, used to run the model on
concrete inputs. -/
def trivEnv : Env :=
  { unescape := fun s => s
    strptime := fun _ => none
    netlocOf := fun _ => []
    uuidAt := fun n => n
    nowFallbackAt := fun _ => 0
    nowCollectAt := fun _ => 0 }

/-- Markup cleaner (`clean_html`): strip tags, decode entities, trim. -/
def clean_html (unescape : List Char → List Char) (text : List Char) : List Char :=
  pyStrip (unescape (stripTags text))

/-- Publish-date parser (`parse_naver_pub_date`): `strptime` result, falling
back to the current time when parsing fails. -/
def parse_naver_pub_date (strp : List Char → Option Int) (now : Int)
    (value : List Char) : Int :=
  (strp value).getD now

/-- Keep an optional string only when present and non-empty (Python truthiness
of `item.get(...)`). -/
def optNonempty : Option (List Char) → Option (List Char)
  | some l => if l.isEmpty then none else some l
  | none => none

/-- Python `item.get("originallink") or item.get("link") or ""`. -/
def resolvedLink (it : RawItem) : List Char :=
  match optNonempty it.originallink with
  | some l => l
  | none =>
    match optNonempty it.link with
    | some l => l
    | none => []

/-- Run outcome of `collect_news_from_naver` (its string second component). -/
inductive Outcome
  | api
  | error
  | no_key
deriving DecidableEq

/-- Result of a collection run: final inbox, `added` count, and outcome. -/
structure CollectResult where
  inbox : List Article
  added : Nat
  outcome : Outcome
deriving DecidableEq

/-- The inner `for item in items` loop of `collect_news_from_naver`:
resolve the link, skip on empty or already-seen links, otherwise build the
article, prepend it to the inbox, record the link and bump the counter. -/
def processItems (env : Env) (keyword : List Char) :
    List RawItem → List Article → List (List Char) → Nat →
    List Article × List (List Char) × Nat
  | [], inbox, links, added => (inbox, links, added)
  | it :: rest, inbox, links, added =>
    let link := resolvedLink it
    if link.isEmpty || memB link links then
      processItems env keyword rest inbox links added
    else
      let title := clean_html env.unescape (it.title.getD "제목 없음".data)
      let summary := clean_html env.unescape (it.description.getD [])
      let press_raw := clean_html env.unescape (it.source.getD [])
      let press := normalize_press_name press_raw (env.netlocOf link)
      let published_at := parse_naver_pub_date env.strptime (env.nowFallbackAt added)
        (it.pubDate.getD [])
      let article := make_article title press published_at link summary keyword
        (env.uuidAt added) (env.nowCollectAt added)
      processItems env keyword rest (article :: inbox) (link :: links) (added + 1)

/-- The `for keyword in keywords` loop inside the `try`: each keyword comes
paired with its fetch response, `none` standing for a raised
`requests.RequestException`, which aborts the loop and lands in the `except`
arm returning `(0, "error")` with the inbox as mutated so far. -/
def collectKeywords (env : Env) :
    List (List Char × Option (List RawItem)) → List Article → List (List Char) → Nat →
    CollectResult
  | [], inbox, _, added => { inbox := inbox, added := added, outcome := .api }
  | (_, none) :: _, inbox, _, _ => { inbox := inbox, added := 0, outcome := .error }
  | (kw, some items) :: rest, inbox, links, added =>
    let s := processItems env kw items inbox links added
    collectKeywords env rest s.1 s.2.1 s.2.2

/-- Collection run (`collect_news_from_naver`): bail out with `no_key` when
either credential is missing, default an empty keyword list, seed the seen-link
set from the current inbox, then walk the keywords. -/
def collect_news_from_naver (env : Env) (creds : Bool)
    (runs : List (List Char × Option (List RawItem)))
    (inbox : List Article) : CollectResult :=
  if !creds then { inbox := inbox, added := 0, outcome := .no_key }
  else collectKeywords env runs inbox (inbox.map (fun a => a.link)) 0

/-- Scheduler-visible session state touched by the collection triggers. -/
structure SchedState where
  auto_collect_enabled : Bool
  last_auto_collect_at : Int
  inbox : List Article
  alerts : List Alert
deriving DecidableEq

/-- One hour, in the abstract clock units used for timestamps. -/
def oneHour : Int := 3600

/-- Scheduler tick (`run_hourly_auto_collect`): no-op when disabled or when
credentials are absent; otherwise, once an hour has passed since
`last_auto_collect_at`, run the collection, refresh alerts, and set
`last_auto_collect_at = now` whatever the outcome was. -/
def run_hourly_auto_collect (env : Env) (creds : Bool)
    (runs : List (List Char × Option (List RawItem)))
    (now : Int) (st : SchedState) : SchedState :=
  if !st.auto_collect_enabled then st
  else if !creds then st
  else if decide (oneHour ≤ now - st.last_auto_collect_at) then
    let r := collect_news_from_naver env creds runs st.inbox
    { st with
      inbox := r.inbox
      alerts := refresh_alerts r.inbox
      last_auto_collect_at := now }
  else st

/-- Manual collection trigger (the sidebar button): same connector and alert
refresh, but `last_auto_collect_at` is not touched. -/
def manual_collect (env : Env) (creds : Bool)
    (runs : List (List Char × Option (List RawItem)))
    (st : SchedState) : SchedState :=
  let r := collect_news_from_naver env creds runs st.inbox
  { st with inbox := r.inbox, alerts := refresh_alerts r.inbox }

/-- Promotion record appended to `st.session_state.saved_articles`. -/
structure SavedArticle where
  saved_id : Nat
  article_id : Nat
  folder : List Char
  saved_at : Int
  title : List Char
  press : List Char
  published_at : Int
  link : List Char
  summary : List Char
  negative_hits : List Char
deriving DecidableEq

/-- The body of the save loop in `page_inbox` for one selected, not yet saved
article: compute the final press from the edited cell (`ov`, stripped; the
article's own press when the edit strips to empty), overwrite the article's
`press` field in place, and build the snapshot record. -/
def promote_one (netlocOf : List Char → List Char) (folder : List Char)
    (ov : List Char) (sid : Nat) (sat : Int) (a : Article) :
    Article × SavedArticle :=
  let edited_press := pyStrip ov
  let final_press :=
    if edited_press.isEmpty then normalize_press_name a.press (netlocOf a.link)
    else normalize_press_name edited_press (netlocOf a.link)
  ({ a with press := final_press },
   { saved_id := sid
     article_id := a.id
     folder := folder
     saved_at := sat
     title := a.title
     press := final_press
     published_at := a.published_at
     link := a.link
     summary := a.summary
     negative_hits := a.negative_hits })

/-- The `for article in filtered_articles` save loop: `existing` is the set of
already-archived article ids, computed once before the loop; `k` counts the
appends made so far in this batch and indexes the per-append uuid draw `sid`
and clock read `sat`; `ov` gives the edited press cell for each article id. -/
def promoteGo (netlocOf : List Char → List Char) (folder : List Char)
    (selected : List Nat) (ov : Nat → List Char)
    (sid : Nat → Nat) (sat : Nat → Int) (existing : List Nat) :
    List Article → Nat → List Article × List SavedArticle
  | [], _ => ([], [])
  | a :: rest, k =>
    if memB a.id selected && !memB a.id existing then
      let p := promote_one netlocOf folder (ov a.id) (sid k) (sat k) a
      let r := promoteGo netlocOf folder selected ov sid sat existing rest (k + 1)
      (p.1 :: r.1, p.2 :: r.2)
    else
      let r := promoteGo netlocOf folder selected ov sid sat existing rest k
      (a :: r.1, r.2)

/-- The save action of `page_inbox` over the staged articles `arts` and the
archive `saved`: returns the staged articles after any in-place press edits
and the archive with the new snapshots appended. -/
def promote_batch (netlocOf : List Char → List Char) (folder : List Char)
    (selected : List Nat) (ov : Nat → List Char)
    (sid : Nat → Nat) (sat : Nat → Int)
    (arts : List Article) (saved : List SavedArticle) :
    List Article × List SavedArticle :=
  let existing := saved.map (fun s => s.article_id)
  let r := promoteGo netlocOf folder selected ov sid sat existing arts 0
  (r.1, saved ++ r.2)

/-- Folder-management state of `page_saved_db`. -/
structure ArchiveState where
  folders : List (List Char)
  saved : List SavedArticle
deriving DecidableEq

/-- Folder deletion (`page_saved_db`, the `선택 폴더 삭제` button): with an
empty selection nothing happens; with `cascade` the saved articles in the
deleted folders are dropped, otherwise the fallback folder is appended when
absent and those articles are reassigned to it; then the selected names are
removed from the folder list, which is refilled with the fallback when it
becomes empty. -/
def delete_folders (names : List (List Char)) (cascade : Bool)
    (st : ArchiveState) : ArchiveState :=
  if names.isEmpty then st
  else
    let st1 :=
      if cascade then
        { st with saved := st.saved.filter (fun s => !memB s.folder names) }
      else
        let folders1 :=
          if memB fallbackFolder st.folders then st.folders
          else st.folders ++ [fallbackFolder]
        { folders := folders1
          saved := st.saved.map (fun s =>
            if memB s.folder names then { s with folder := fallbackFolder } else s) }
    let folders2 := st1.folders.filter (fun f => !memB f names)
    { st1 with folders := if folders2.isEmpty then [fallbackFolder] else folders2 }

/-- Article with given id, link and collection time and blank text fields,
used to run the model on concrete inputs. -/
def mkArt (n : Nat) (l : List Char) (c : Int) : Article :=
  { id := n
    title := []
    press := []
    published_at := 0
    link := l
    summary := []
    query_keyword := []
    is_negative := false
    negative_hits := []
    collected_at := c }

/-- Raw feed item carrying only an `originallink`, used to run the model on
concrete inputs. -/
def itemWithLink (l : List Char) : RawItem :=
  { originallink := some l
    link := none
    title := none
    description := none
    source := none
    pubDate := none }

/-- SavedArticle with given saved id, article id and folder and blank text
fields, used to run the model on concrete inputs. -/
def mkSaved (sidv aid : Nat) (f : List Char) : SavedArticle :=
  { saved_id := sidv
    article_id := aid
    folder := f
    saved_at := 0
    title := []
    press := []
    published_at := 0
    link := []
    summary := []
    negative_hits := [] }

/-- The relation `earlier alert has the later or an equal time`, i.e. the
list is ordered by `time` descending. -/
def timeGE (p q : Alert) : Prop := q.time ≤ p.time

/-- Fields of an article other than `press` agree. -/
def sameExceptPress (a b : Article) : Prop :=
  b.id = a.id ∧ b.title = a.title ∧ b.published_at = a.published_at ∧
  b.link = a.link ∧ b.summary = a.summary ∧ b.query_keyword = a.query_keyword ∧
  b.is_negative = a.is_negative ∧ b.negative_hits = a.negative_hits ∧
  b.collected_at = a.collected_at

theorem memB_iff {α : Type} [BEq α] [LawfulBEq α] (x : α) (l : List α) :
    memB x l = true ↔ x ∈ l := by
  simp [memB, List.any_eq_true]

theorem beginsWith_iff (n : List Char) : ∀ h : List Char,
    (beginsWith n h = true ↔ ∃ r, h = n ++ r) := by
  induction n with
  | nil =>
    intro h
    simp [beginsWith]
  | cons a as ih =>
    intro h
    cases h with
    | nil =>
      simp [beginsWith]
    | cons b bs =>
      simp only [beginsWith, Bool.and_eq_true, beq_iff_eq, ih bs]
      constructor
      · rintro ⟨rfl, r, rfl⟩
        exact ⟨r, rfl⟩
      · rintro ⟨r, hr⟩
        cases hr
        exact ⟨rfl, r, rfl⟩

theorem containsSub_iff (n : List Char) : ∀ h : List Char,
    (containsSub n h = true ↔ ∃ l r, h = l ++ (n ++ r)) := by
  intro h
  induction h with
  | nil =>
    simp only [containsSub, List.isEmpty_iff]
    constructor
    · rintro rfl
      exact ⟨[], [], rfl⟩
    · rintro ⟨l, r, hl⟩
      rcases List.append_eq_nil.mp hl.symm with ⟨rfl, h2⟩
      rcases List.append_eq_nil.mp h2 with ⟨rfl, rfl⟩
      rfl
  | cons c t ih =>
    simp only [containsSub, Bool.or_eq_true, beginsWith_iff, ih]
    constructor
    · rintro (⟨r, hr⟩ | ⟨l, r, hr⟩)
      · exact ⟨[], r, hr⟩
      · exact ⟨c :: l, r, by rw [hr]; rfl⟩
    · rintro ⟨l, r, hr⟩
      cases l with
      | nil =>
        exact Or.inl ⟨r, hr⟩
      | cons x xs =>
        rcases List.cons_eq_cons.mp hr with ⟨rfl, h2⟩
        exact Or.inr ⟨xs, r, h2⟩

theorem firstAlias_of_split (s : List Char) (k ko : List Char)
    (post : List (List Char × List Char)) :
    ∀ pre : List (List Char × List Char), containsSub k s = true →
      (∀ p ∈ pre, containsSub p.1 s = false) →
      firstAlias s (pre ++ (k, ko) :: post) = some ko := by
  intro pre
  induction pre with
  | nil =>
    intro hk _
    simp [firstAlias, hk]
  | cons q qs ih =>
    intro hk hpre
    have hq : containsSub q.1 s = false := hpre q (List.mem_cons_self q qs)
    have : firstAlias s (qs ++ (k, ko) :: post) = some ko :=
      ih hk (fun p hp => hpre p (List.mem_cons_of_mem q hp))
    cases q with
    | mk q1 q2 =>
      simpa [firstAlias, hq] using this

theorem firstAlias_of_none (s : List Char) :
    ∀ t : List (List Char × List Char),
      (∀ p ∈ t, containsSub p.1 s = false) → firstAlias s t = none := by
  intro t
  induction t with
  | nil =>
    intro _
    rfl
  | cons q qs ih =>
    intro h
    have hq : containsSub q.1 s = false := h q (List.mem_cons_self q qs)
    have := ih (fun p hp => h p (List.mem_cons_of_mem q hp))
    cases q with
    | mk q1 q2 =>
      simpa [firstAlias, hq] using this

theorem insByTime_perm (x : Alert) : ∀ l : List Alert,
    (insByTime x l).Perm (x :: l) := by
  intro l
  induction l with
  | nil =>
    exact List.Perm.refl _
  | cons y ys ih =>
    by_cases h : y.time ≤ x.time
    · simp [insByTime, h]
    · simp only [insByTime, h, decide_False, if_false]
      exact List.Perm.trans (ih.cons y) (List.Perm.swap x y ys)

theorem sortByTimeDesc_perm : ∀ l : List Alert, (sortByTimeDesc l).Perm l := by
  intro l
  induction l with
  | nil =>
    exact List.Perm.refl _
  | cons x xs ih =>
    exact (insByTime_perm x (sortByTimeDesc xs)).trans (ih.cons x)

theorem insByTime_pairwise (x : Alert) : ∀ l : List Alert,
    l.Pairwise timeGE → (insByTime x l).Pairwise timeGE := by
  intro l
  induction l with
  | nil =>
    intro _
    simp [insByTime, List.pairwise_singleton]
  | cons y ys ih =>
    intro h
    rcases List.pairwise_cons.mp h with ⟨h1, h2⟩
    by_cases hxy : y.time ≤ x.time
    · simp only [insByTime, hxy, decide_True, if_true]
      refine List.pairwise_cons.mpr ⟨?_, h⟩
      intro z hz
      rcases List.mem_cons.mp hz with rfl | hz'
      · exact hxy
      · exact le_trans (h1 z hz') hxy
    · simp only [insByTime, hxy, decide_False, if_false]
      refine List.pairwise_cons.mpr ⟨?_, ih h2⟩
      intro z hz
      have hz2 : z ∈ x :: ys := (insByTime_perm x ys).mem_iff.mp hz
      rcases List.mem_cons.mp hz2 with rfl | hz'
      · exact le_of_lt (lt_of_not_le hxy)
      · exact h1 z hz'

theorem sortByTimeDesc_pairwise : ∀ l : List Alert,
    (sortByTimeDesc l).Pairwise timeGE := by
  intro l
  induction l with
  | nil =>
    exact List.Pairwise.nil
  | cons x xs ih =>
    exact insByTime_pairwise x (sortByTimeDesc xs) ih

/-- C6: for every Staging Store state the recomputed alert list is exactly
one alert per resident negative article and no others (a permutation of the
negative subset mapped to alerts), each alert's time is that article's
`published_at`, and the list is pairwise sorted descending by time; since
`refresh_alerts` is a pure function of the store, this holds after any
sequence of inserts and purges followed by a recompute. -/
theorem alerts_exactly_negative_sorted : ∀ inbox : List Article,
    (refresh_alerts inbox).Perm
      ((inbox.filter (fun a => a.is_negative)).map toAlert)
    ∧ (refresh_alerts inbox).Pairwise timeGE
    ∧ (∀ a : Article, (toAlert a).time = a.published_at) :=
  fun _ => ⟨sortByTimeDesc_perm _, sortByTimeDesc_pairwise _, fun _ => rfl⟩

/-- C3 counterexample: an article whose age is exactly the TTL is claimed to
be removed by the purge, but the code keeps it (`collected_at >= threshold`
retains the boundary case): with `now = 7`, `ttl = 7` and `collected_at = 0`
the age `now - collected_at = 7 ≥ ttl`, yet the article is still present. -/
theorem purge_boundary_counterexample :
    purge_old_inbox 7 7 [mkArt 0 [] 0] = [mkArt 0 [] 0]
    ∧ (7 : Int) - (mkArt 0 [] 0).collected_at ≥ 7 := by
  constructor
  · decide
  · decide

/-- C3 (amended): `purge_old_inbox` removes exactly the articles whose age
strictly exceeds the TTL — an article stays resident iff
`now - collected_at ≤ ttl`; an article of age exactly the TTL remains, one
collected 8 days ago is absent after a 7-day purge, and one collected 6 days
ago remains. -/
theorem purge_removes_strictly_older : (∀ (now ttl : Int) (inbox : List Article)
    (a : Article), a ∈ purge_old_inbox now ttl inbox ↔
      a ∈ inbox ∧ now - a.collected_at ≤ ttl)
    ∧ purge_old_inbox 8 7 [mkArt 0 [] 0] = []
    ∧ purge_old_inbox 6 7 [mkArt 0 [] 0] = [mkArt 0 [] 0]
    ∧ purge_old_inbox 7 7 [mkArt 0 [] 0] = [mkArt 0 [] 0] := by
  refine ⟨?_, by decide, by decide, by decide⟩
  intro now ttl inbox a
  simp only [purge_old_inbox, List.mem_filter, decide_eq_true_eq]
  constructor
  · rintro ⟨h1, h2⟩
    exact ⟨h1, by omega⟩
  · rintro ⟨h1, h2⟩
    exact ⟨h1, by omega⟩

theorem processItems_suffix (env : Env) (kw : List Char) :
    ∀ (items : List RawItem) (inbox : List Article) (links : List (List Char))
      (added : Nat),
      inbox <:+ (processItems env kw items inbox links added).1 := by
  intro items
  induction items with
  | nil =>
    intro inbox links added
    exact List.suffix_refl _
  | cons it rest ih =>
    intro inbox links added
    simp only [processItems]
    split
    · exact ih inbox links added
    · exact List.IsSuffix.trans (List.suffix_cons _ _) (ih _ _ _)

theorem collectKeywords_error_shape (env : Env) :
    ∀ (runs : List (List Char × Option (List RawItem))) (inbox : List Article)
      (links : List (List Char)) (added : Nat),
      (collectKeywords env runs inbox links added).outcome = Outcome.error →
        (collectKeywords env runs inbox links added).added = 0
        ∧ inbox <:+ (collectKeywords env runs inbox links added).inbox := by
  intro runs
  induction runs with
  | nil =>
    intro inbox links added h
    exact absurd h (by simp [collectKeywords])
  | cons r rest ih =>
    intro inbox links added h
    rcases r with ⟨kw, resp⟩
    cases resp with
    | none =>
      exact ⟨rfl, List.suffix_refl _⟩
    | some items =>
      simp only [collectKeywords] at h ⊢
      rcases ih _ _ _ h with ⟨h0, hsuf⟩
      exact ⟨h0, List.IsSuffix.trans (processItems_suffix env kw items inbox links added) hsuf⟩

/-- C1 counterexample: a run whose first keyword succeeds (committing one
article) and whose second keyword hits a transport failure returns the
`upstream_error` outcome, yet the Staging Store is not equal to the store
before the run — the first keyword's article stays committed. -/
theorem collect_upstream_error_commits_counterexample :
    (collect_news_from_naver trivEnv true
      [("k1".data, some [itemWithLink "a".data]), ("k2".data, none)] []).outcome
      = Outcome.error
    ∧ (collect_news_from_naver trivEnv true
      [("k1".data, some [itemWithLink "a".data]), ("k2".data, none)] []).inbox
      ≠ [] := by
  constructor
  · decide
  · decide

/-- C1 (amended): on the `upstream_error` outcome the run reports an added
count of zero and removes or modifies nothing — the Staging Store after the
run is the store before the run with the articles ingested from the keywords
fetched before the failing keyword prepended; the store is exactly unchanged
when the failure strikes the first keyword. -/
theorem collect_upstream_error_partial :
    ∀ (env : Env) (creds : Bool)
      (runs : List (List Char × Option (List RawItem))) (inbox : List Article),
      (collect_news_from_naver env creds runs inbox).outcome = Outcome.error →
        (collect_news_from_naver env creds runs inbox).added = 0
        ∧ (∃ ns : List Article,
            (collect_news_from_naver env creds runs inbox).inbox = ns ++ inbox)
        ∧ (∀ kw rest, runs = (kw, none) :: rest →
            (collect_news_from_naver env creds runs inbox).inbox = inbox) := by
  intro env creds runs inbox h
  cases creds with
  | false => exact absurd h (by simp [collect_news_from_naver])
  | true =>
    have h' : (collectKeywords env runs inbox (inbox.map (fun a => a.link)) 0).outcome
        = Outcome.error := h
    rcases collectKeywords_error_shape env runs inbox (inbox.map (fun a => a.link)) 0 h'
      with ⟨h0, ns, hns⟩
    refine ⟨h0, ⟨ns, hns.symm⟩, ?_⟩
    rintro kw rest rfl
    rfl

theorem collect_upstream_error_partial_witness :
    (collect_news_from_naver trivEnv true [("k".data, none)]
      [mkArt 0 "a".data 0]).outcome = Outcome.error
    ∧ ((collect_news_from_naver trivEnv true [("k".data, none)]
        [mkArt 0 "a".data 0]).added = 0
      ∧ (∃ ns : List Article, (collect_news_from_naver trivEnv true [("k".data, none)]
          [mkArt 0 "a".data 0]).inbox = ns ++ [mkArt 0 "a".data 0])
      ∧ (∀ kw rest, [("k".data, (none : Option (List RawItem)))] = (kw, none) :: rest →
          (collect_news_from_naver trivEnv true [("k".data, none)]
            [mkArt 0 "a".data 0]).inbox = [mkArt 0 "a".data 0])) :=
  ⟨by decide,
   collect_upstream_error_partial trivEnv true [("k".data, none)]
     [mkArt 0 "a".data 0] (by decide)⟩

theorem processItems_links_nodup (env : Env) (kw : List Char) :
    ∀ (items : List RawItem) (inbox : List Article) (links : List (List Char))
      (added : Nat),
      ((inbox.map (fun a => a.link)).Nodup) →
      (∀ a ∈ inbox, a.link ∈ links) →
      (((processItems env kw items inbox links added).1.map (fun a => a.link)).Nodup
       ∧ ∀ a ∈ (processItems env kw items inbox links added).1,
           a.link ∈ (processItems env kw items inbox links added).2.1) := by
  intro items
  induction items with
  | nil =>
    intro inbox links added h1 h2
    exact ⟨h1, h2⟩
  | cons it rest ih =>
    intro inbox links added h1 h2
    simp only [processItems]
    split
    · exact ih inbox links added h1 h2
    · next hguard =>
      have hg : (resolvedLink it).isEmpty = false
          ∧ memB (resolvedLink it) links = false := by
        constructor
        · cases he : (resolvedLink it).isEmpty
          · rfl
          · exact absurd (by simp [he]) hguard
        · cases hm : memB (resolvedLink it) links
          · rfl
          · exact absurd (by simp [hm]) hguard
      have hnotin : resolvedLink it ∉ links := by
        intro hmem
        have := (memB_iff (resolvedLink it) links).mpr hmem
        rw [this] at hg
        exact absurd hg.2 (by simp)
      apply ih
      · simp only [List.map_cons, List.nodup_cons, make_article]
        refine ⟨?_, h1⟩
        intro hmem
        rcases List.mem_map.mp hmem with ⟨a, ha, hal⟩
        exact hnotin (hal ▸ h2 a ha)
      · intro a ha
        rcases List.mem_cons.mp ha with rfl | ha'
        · simp [make_article]
        · exact List.mem_cons_of_mem _ (h2 a ha')

theorem collectKeywords_links_nodup (env : Env) :
    ∀ (runs : List (List Char × Option (List RawItem))) (inbox : List Article)
      (links : List (List Char)) (added : Nat),
      ((inbox.map (fun a => a.link)).Nodup) →
      (∀ a ∈ inbox, a.link ∈ links) →
      (((collectKeywords env runs inbox links added).inbox).map
        (fun a => a.link)).Nodup := by
  intro runs
  induction runs with
  | nil =>
    intro inbox links added h1 _
    exact h1
  | cons r rest ih =>
    intro inbox links added h1 h2
    rcases r with ⟨kw, resp⟩
    cases resp with
    | none => exact h1
    | some items =>
      rcases processItems_links_nodup env kw items inbox links added h1 h2
        with ⟨g1, g2⟩
      exact ih _ _ _ g1 g2

/-- C4: link uniqueness is an invariant of ingestion — a run starting from a
Staging Store whose resident links are pairwise distinct (an item whose
resolved link is empty or already seen, across the store and the whole run,
being skipped) ends in a store whose links are again pairwise distinct. -/
theorem ingestion_preserves_link_nodup :
    ∀ (env : Env) (creds : Bool)
      (runs : List (List Char × Option (List RawItem))) (inbox : List Article),
      ((inbox.map (fun a => a.link)).Nodup) →
      (((collect_news_from_naver env creds runs inbox).inbox).map
        (fun a => a.link)).Nodup := by
  intro env creds runs inbox h
  cases creds with
  | false => exact h
  | true =>
    exact collectKeywords_links_nodup env runs inbox (inbox.map (fun a => a.link)) 0 h
      (fun a ha => List.mem_map_of_mem (fun a => a.link) ha)

theorem ingestion_preserves_link_nodup_witness :
    (([mkArt 0 "a".data 0].map (fun a => a.link)).Nodup)
    ∧ (((collect_news_from_naver trivEnv true
        [("k".data, some [itemWithLink "a".data, itemWithLink "b".data,
          itemWithLink [], itemWithLink "b".data])]
        [mkArt 0 "a".data 0]).inbox).map (fun a => a.link)).Nodup :=
  ⟨by decide,
   ingestion_preserves_link_nodup trivEnv true
     [("k".data, some [itemWithLink "a".data, itemWithLink "b".data,
       itemWithLink [], itemWithLink "b".data])]
     [mkArt 0 "a".data 0] (by decide)⟩

theorem promoteGo_frame (nf : List Char → List Char) (f : List Char)
    (sel : List Nat) (ov : Nat → List Char) (sid : Nat → Nat) (sat : Nat → Int)
    (ex : List Nat) :
    ∀ (arts : List Article) (k : Nat),
      List.Forall₂ sameExceptPress arts
        ((promoteGo nf f sel ov sid sat ex arts k).1) := by
  intro arts
  induction arts with
  | nil =>
    intro k
    exact List.Forall₂.nil
  | cons a rest ih =>
    intro k
    simp only [promoteGo]
    split
    · exact List.Forall₂.cons ⟨rfl, rfl, rfl, rfl, rfl, rfl, rfl, rfl, rfl⟩ (ih (k + 1))
    · exact List.Forall₂.cons ⟨rfl, rfl, rfl, rfl, rfl, rfl, rfl, rfl, rfl⟩ (ih k)

/-- C2 counterexample: promoting a staged article is not free of mutation of
the Staging Store — with raw press `Yonhap` and no override, the resident
article's `press` field is rewritten to the re-normalized value, so the
staged list after promotion differs from the staged list before. -/
theorem promotion_immutability_counterexample :
    (promote_batch (fun _ => []) "f".data [1] (fun _ => []) (fun n => n)
      (fun _ => 0) [{ mkArt 1 "l".data 0 with press := "Yonhap".data }] []).1
      ≠ [{ mkArt 1 "l".data 0 with press := "Yonhap".data }] := by
  decide

/-- C2 (amended): promotion creates a SavedArticle snapshot and mutates
exactly one field of the source Article — its `press` is overwritten with the
final press used in the snapshot (override re-normalized when non-empty, else
the article's press re-normalized); every other field of every staged article
is unchanged, and the archive is only appended to. -/
theorem promotion_mutates_only_press :
    (∀ (nf : List Char → List Char) (f ov : List Char) (sid : Nat) (sat : Int)
      (a : Article),
      (promote_one nf f ov sid sat a).1
        = { a with press := (promote_one nf f ov sid sat a).2.press })
    ∧ (∀ (nf : List Char → List Char) (f : List Char) (sel : List Nat)
        (ov : Nat → List Char) (sid : Nat → Nat) (sat : Nat → Int)
        (arts : List Article) (saved : List SavedArticle),
        List.Forall₂ sameExceptPress arts
          ((promote_batch nf f sel ov sid sat arts saved).1)
        ∧ ∃ ns : List SavedArticle,
            (promote_batch nf f sel ov sid sat arts saved).2 = saved ++ ns) := by
  constructor
  · intro nf f ov sid sat a
    rfl
  · intro nf f sel ov sid sat arts saved
    constructor
    · simp only [promote_batch]
      exact promoteGo_frame nf f sel ov sid sat
        (saved.map (fun s => s.article_id)) arts 0
    · simp only [promote_batch]
      exact ⟨_, rfl⟩

theorem promoteGo_noop (nf : List Char → List Char) (f : List Char)
    (sel : List Nat) (ov : Nat → List Char) (sid : Nat → Nat) (sat : Nat → Int)
    (ex : List Nat) :
    ∀ (arts : List Article) (k : Nat),
      (∀ a ∈ arts, memB a.id sel = true → memB a.id ex = true) →
      promoteGo nf f sel ov sid sat ex arts k = (arts, []) := by
  intro arts
  induction arts with
  | nil =>
    intro k _
    rfl
  | cons a rest ih =>
    intro k h
    have hguard : (memB a.id sel && !memB a.id ex) = false := by
      cases hs : memB a.id sel with
      | false => simp
      | true =>
        have := h a (List.mem_cons_self a rest) hs
        simp [this]
    have hr := ih k (fun b hb hs => h b (List.mem_cons_of_mem a hb) hs)
    simp [promoteGo, hguard, hr]

theorem promoteGo_saved_ids (nf : List Char → List Char) (f : List Char)
    (sel : List Nat) (ov : Nat → List Char) (sid : Nat → Nat) (sat : Nat → Int)
    (ex : List Nat) :
    ∀ (arts : List Article) (k : Nat),
      ((promoteGo nf f sel ov sid sat ex arts k).2).map (fun s => s.article_id)
        = (arts.filter (fun a => memB a.id sel && !memB a.id ex)).map
            (fun a => a.id) := by
  intro arts
  induction arts with
  | nil =>
    intro k
    rfl
  | cons a rest ih =>
    intro k
    by_cases hguard : (memB a.id sel && !memB a.id ex) = true
    · simp [promoteGo, hguard, List.filter_cons, ih (k + 1), promote_one]
    · simp [promoteGo, hguard, List.filter_cons, ih k]

/-- C5: promotion is idempotent per article id — promoting articles whose ids
all already have a SavedArticle changes nothing at all (neither the staged
articles nor the archive), and when staged ids are pairwise distinct and the
archive starts with at most one record per article id, the archive after any
promotion batch still has at most one SavedArticle per article id. -/
theorem promotion_idempotent_per_id :
    (∀ (nf : List Char → List Char) (f : List Char) (sel : List Nat)
      (ov : Nat → List Char) (sid : Nat → Nat) (sat : Nat → Int)
      (arts : List Article) (saved : List SavedArticle),
      (∀ a ∈ arts, memB a.id sel = true →
        a.id ∈ saved.map (fun s => s.article_id)) →
      promote_batch nf f sel ov sid sat arts saved = (arts, saved))
    ∧ (∀ (nf : List Char → List Char) (f : List Char) (sel : List Nat)
        (ov : Nat → List Char) (sid : Nat → Nat) (sat : Nat → Int)
        (arts : List Article) (saved : List SavedArticle),
        ((arts.map (fun a => a.id)).Nodup) →
        ((saved.map (fun s => s.article_id)).Nodup) →
        (((promote_batch nf f sel ov sid sat arts saved).2).map
          (fun s => s.article_id)).Nodup) := by
  constructor
  · intro nf f sel ov sid sat arts saved h
    have hno : ∀ a ∈ arts, memB a.id sel = true →
        memB a.id (saved.map (fun s => s.article_id)) = true :=
      fun a ha hs => (memB_iff _ _).mpr (h a ha hs)
    have hg := promoteGo_noop nf f sel ov sid sat
      (saved.map (fun s => s.article_id)) arts 0 hno
    simp [promote_batch, hg]
  · intro nf f sel ov sid sat arts saved h1 h2
    simp only [promote_batch, List.map_append]
    rw [promoteGo_saved_ids]
    rw [List.nodup_append]
    refine ⟨h2, ?_, ?_⟩
    · have hsub : ((arts.filter (fun a => memB a.id sel
          && !memB a.id (saved.map (fun s => s.article_id)))).map
            (fun a => a.id)).Sublist (arts.map (fun a => a.id)) :=
        (List.filter_sublist arts).map _
      exact hsub.nodup h1
    · intro x hx1 hx2
      rcases List.mem_map.mp hx2 with ⟨a, ha, rfl⟩
      have hpa := (List.mem_filter.mp ha).2
      have hpa' : memB a.id sel = true
          ∧ (!memB a.id (saved.map (fun s => s.article_id))) = true := by
        simpa [Bool.and_eq_true] using hpa
      rcases hpa' with ⟨_, hnin⟩
      have hmem : memB a.id (saved.map (fun s => s.article_id)) = true :=
        (memB_iff _ _).mpr hx1
      rw [hmem] at hnin
      exact absurd hnin (by simp)

theorem promotion_idempotent_per_id_witness :
    ((∀ a ∈ [mkArt 1 [] 0], memB a.id [1] = true →
        a.id ∈ ([mkSaved 0 1 []].map (fun s => s.article_id)))
      ∧ promote_batch (fun _ => []) [] [1] (fun _ => []) (fun n => n)
          (fun _ => 0) [mkArt 1 [] 0] [mkSaved 0 1 []]
          = ([mkArt 1 [] 0], [mkSaved 0 1 []]))
    ∧ ((([mkArt 1 [] 0].map (fun a => a.id)).Nodup)
      ∧ (([mkSaved 0 1 []].map (fun s => s.article_id)).Nodup)
      ∧ (((promote_batch (fun _ => []) [] [1] (fun _ => []) (fun n => n)
          (fun _ => 0) [mkArt 1 [] 0] [mkSaved 0 1 []]).2).map
            (fun s => s.article_id)).Nodup) :=
  ⟨⟨by decide,
    promotion_idempotent_per_id.1 (fun _ => []) [] [1] (fun _ => []) (fun n => n)
      (fun _ => 0) [mkArt 1 [] 0] [mkSaved 0 1 []] (by decide)⟩,
   ⟨by decide, by decide,
    promotion_idempotent_per_id.2 (fun _ => []) [] [1] (fun _ => []) (fun n => n)
      (fun _ => 0) [mkArt 1 [] 0] [mkSaved 0 1 []] (by decide) (by decide)⟩⟩

/-- C7: only the scheduled path updates the last-run time — a tick with auto
collection enabled and credentials present that sees an hour or more since
`last_auto_collect_at` sets it to `now` for every fetch outcome (the run
responses, including failing ones, are universally quantified), while a
manual trigger runs the same connector but never touches
`last_auto_collect_at`. -/
theorem scheduler_tick_updates_last_run :
    ∀ (env : Env) (creds : Bool)
      (runs : List (List Char × Option (List RawItem))) (now : Int)
      (st : SchedState),
      (st.auto_collect_enabled = true → creds = true →
        oneHour ≤ now - st.last_auto_collect_at →
        (run_hourly_auto_collect env creds runs now st).last_auto_collect_at = now)
      ∧ (manual_collect env creds runs st).last_auto_collect_at
          = st.last_auto_collect_at := by
  intro env creds runs now st
  constructor
  · intro he hc ht
    simp [run_hourly_auto_collect, he, hc, ht]
  · rfl

theorem scheduler_tick_updates_last_run_witness :
    (run_hourly_auto_collect trivEnv true [("k".data, none)] 3600
      ⟨true, 0, [], []⟩).last_auto_collect_at = 3600
    ∧ (manual_collect trivEnv true [("k".data, none)]
        ⟨true, 0, [], []⟩).last_auto_collect_at = 0 :=
  ⟨(scheduler_tick_updates_last_run trivEnv true [("k".data, none)] 3600
      ⟨true, 0, [], []⟩).1 rfl rfl (by decide),
   (scheduler_tick_updates_last_run trivEnv true [("k".data, none)] 3600
      ⟨true, 0, [], []⟩).2⟩

theorem length_filter_not_eq {α : Type} (p : α → Bool) :
    ∀ l : List α,
      (l.filter (fun a => !p a)).length = l.length - (l.filter p).length := by
  intro l
  induction l with
  | nil => rfl
  | cons a t ih =>
    have hle : (t.filter p).length ≤ t.length := List.length_filter_le p t
    cases hpa : p a
    · simp [List.filter_cons, hpa]
      omega
    · simp [List.filter_cons, hpa]
      omega

/-- C9: deleting a non-empty set of folders preserves the total SavedArticle
count when `cascade` is off (every affected record is reassigned to the
fallback folder), and with `cascade` on it shrinks the archive by exactly the
number of SavedArticles whose folder was among the deleted names. -/
theorem folder_deletion_counts :
    ∀ (names : List (List Char)) (cascade : Bool) (st : ArchiveState),
      names ≠ [] →
      ((cascade = false →
        ((delete_folders names false st).saved.length = st.saved.length
          ∧ (delete_folders names false st).saved
            = st.saved.map (fun s =>
                if memB s.folder names then { s with folder := fallbackFolder }
                else s)))
      ∧ (cascade = true →
          (delete_folders names true st).saved.length
            = st.saved.length
              - (st.saved.filter (fun s => memB s.folder names)).length)) := by
  intro names cascade st hne
  have hni : names.isEmpty = false := by
    cases names with
    | nil => exact absurd rfl hne
    | cons a t => rfl
  constructor
  · intro _
    constructor
    · simp [delete_folders, hni]
    · simp [delete_folders, hni]
  · intro _
    have hgoal : (delete_folders names true st).saved
        = st.saved.filter (fun s => !memB s.folder names) := by
      simp [delete_folders, hni]
    rw [hgoal]
    exact length_filter_not_eq (fun s => memB s.folder names) st.saved

theorem folder_deletion_counts_witness :
    (["a".data] ≠ ([] : List (List Char)))
    ∧ (delete_folders ["a".data] false
        ⟨["a".data], [mkSaved 0 0 "a".data, mkSaved 1 1 "b".data]⟩).saved.length
        = ([mkSaved 0 0 "a".data, mkSaved 1 1 "b".data] : List SavedArticle).length
    ∧ (delete_folders ["a".data] true
        ⟨["a".data], [mkSaved 0 0 "a".data, mkSaved 1 1 "b".data]⟩).saved.length
        = ([mkSaved 0 0 "a".data, mkSaved 1 1 "b".data] : List SavedArticle).length
          - (([mkSaved 0 0 "a".data, mkSaved 1 1 "b".data] : List SavedArticle).filter
              (fun s => memB s.folder ["a".data])).length :=
  ⟨by decide,
   ((folder_deletion_counts ["a".data] false
      ⟨["a".data], [mkSaved 0 0 "a".data, mkSaved 1 1 "b".data]⟩ (by decide)).1 rfl).1,
   (folder_deletion_counts ["a".data] true
      ⟨["a".data], [mkSaved 0 0 "a".data, mkSaved 1 1 "b".data]⟩ (by decide)).2 rfl⟩

theorem normalize_guard_true (raw : List Char) (h1 : pyStrip raw ≠ [])
    (h2 : hasKorean (pyStrip raw) = true) :
    (!(pyStrip raw).isEmpty && hasKorean (pyStrip raw)) = true := by
  cases hp : pyStrip raw with
  | nil => exact absurd hp h1
  | cons x xs =>
    rw [hp] at h2
    simp [h2]

theorem normalize_guard_false (raw : List Char)
    (h : ¬(pyStrip raw ≠ [] ∧ hasKorean (pyStrip raw) = true)) :
    (!(pyStrip raw).isEmpty && hasKorean (pyStrip raw)) = false := by
  by_cases hp : pyStrip raw = []
  · simp [hp]
  · have hk : hasKorean (pyStrip raw) = false := by
      cases hk2 : hasKorean (pyStrip raw) with
      | false => rfl
      | true => exact absurd ⟨hp, hk2⟩ h
    simp [hk]

/-- C8 counterexample: a raw label that is non-empty and contains Korean
characters is not returned unchanged — surrounding whitespace is trimmed
first, so `" 연합뉴스"` comes back as `"연합뉴스"`, not as itself. -/
theorem normalizer_unchanged_counterexample :
    hasKorean " 연합뉴스".data = true
    ∧ " 연합뉴스".data ≠ ([] : List Char)
    ∧ normalize_press_name " 연합뉴스".data "x.com".data ≠ " 연합뉴스".data := by
  refine ⟨by decide, by decide, by decide⟩

/-- C8 (amended): the press normalizer follows the three-step algorithm on
the whitespace-trimmed raw label — (1) a trimmed label that is non-empty and
contains a Korean character is returned in trimmed form; (2) otherwise the
lowercased, space-stripped trimmed label and then the link's domain token are
matched against the alias table, label before domain, the first table entry
(in table order) whose key occurs as a substring winning; (3) with no alias
match anywhere the non-empty trimmed label is returned, else the domain token
(which is the unknown-publisher sentinel when the host is empty).  Raw press
`"Yonhap"` with any link yields `"연합뉴스"`. -/
theorem normalizer_three_steps :
    ∀ raw netloc : List Char,
      ((pyStrip raw ≠ [] → hasKorean (pyStrip raw) = true →
        normalize_press_name raw netloc = pyStrip raw)
      ∧ (¬(pyStrip raw ≠ [] ∧ hasKorean (pyStrip raw) = true) →
          ((∀ (pre post : List (List Char × List Char)) (k ko : List Char),
            PRESS_NAME_MAP = pre ++ (k, ko) :: post →
            containsSub k (removeSpaces (lowerAscii (pyStrip raw))) = true →
            (∀ p ∈ pre,
              containsSub p.1 (removeSpaces (lowerAscii (pyStrip raw))) = false) →
            normalize_press_name raw netloc = ko)
          ∧ ((∀ p ∈ PRESS_NAME_MAP,
               containsSub p.1 (removeSpaces (lowerAscii (pyStrip raw))) = false) →
              ((∀ (pre post : List (List Char × List Char)) (k ko : List Char),
                PRESS_NAME_MAP = pre ++ (k, ko) :: post →
                containsSub k
                  (removeSpaces (lowerAscii (guess_press_from_host netloc))) = true →
                (∀ p ∈ pre, containsSub p.1
                  (removeSpaces (lowerAscii (guess_press_from_host netloc))) = false) →
                normalize_press_name raw netloc = ko)
              ∧ ((∀ p ∈ PRESS_NAME_MAP, containsSub p.1
                  (removeSpaces (lowerAscii (guess_press_from_host netloc))) = false) →
                 normalize_press_name raw netloc
                   = (if pyStrip raw = [] then guess_press_from_host netloc
                      else pyStrip raw))))))
      ∧ normalize_press_name "Yonhap".data netloc = "연합뉴스".data) := by
  intro raw netloc
  refine ⟨?_, ?_, ?_⟩
  · intro h1 h2
    simp [normalize_press_name, normalize_guard_true raw h1 h2]
  · intro hnk
    have hg := normalize_guard_false raw hnk
    refine ⟨?_, ?_⟩
    · intro pre post k ko hmap hk hpre
      have hfa : firstAlias (removeSpaces (lowerAscii (pyStrip raw)))
          PRESS_NAME_MAP = some ko := by
        rw [hmap]
        exact firstAlias_of_split _ k ko post pre hk hpre
      simp [normalize_press_name, hg, hfa]
    · intro hall
      have hfa1 : firstAlias (removeSpaces (lowerAscii (pyStrip raw)))
          PRESS_NAME_MAP = none := firstAlias_of_none _ _ hall
      refine ⟨?_, ?_⟩
      · intro pre post k ko hmap hk hpre
        have hfa2 : firstAlias
            (removeSpaces (lowerAscii (guess_press_from_host netloc)))
            PRESS_NAME_MAP = some ko := by
          rw [hmap]
          exact firstAlias_of_split _ k ko post pre hk hpre
        simp [normalize_press_name, hg, hfa1, hfa2]
      · intro hall2
        have hfa2 : firstAlias
            (removeSpaces (lowerAscii (guess_press_from_host netloc)))
            PRESS_NAME_MAP = none := firstAlias_of_none _ _ hall2
        by_cases hp : pyStrip raw = []
        · rw [hp] at hfa1
          simp [normalize_press_name, hg, hfa1, hfa2, hp]
        · have hpe : (pyStrip raw).isEmpty = false := by
            cases hq : pyStrip raw with
            | nil => exact absurd hq hp
            | cons x xs => rfl
          simp [normalize_press_name, hg, hfa1, hfa2, hp, hpe]
  · rfl

theorem normalizer_three_steps_witness :
    normalize_press_name "연합뉴스".data "x.com".data = "연합뉴스".data
    ∧ normalize_press_name "MK News".data "x.com".data = "매일경제".data :=
  ⟨(normalizer_three_steps "연합뉴스".data "x.com".data).1 (by decide) (by decide),
   ((normalizer_three_steps "MK News".data "x.com".data).2.1 (by decide)).1
     [("yna".data, "연합뉴스".data), ("yonhap".data, "연합뉴스".data)]
     [("hankyung".data, "한국경제".data),
      ("mt".data, "머니투데이".data),
      ("sedaily".data, "서울경제".data),
      ("etnews".data, "전자신문".data),
      ("heraldcorp".data, "헤럴드경제".data),
      ("chosunbiz".data, "조선비즈".data),
      ("asiae".data, "아시아경제".data)]
     "mk".data "매일경제".data (by decide) (by decide) (by decide)⟩

/-- C10 counterexample: a Korean-free label that merely contains the alias
key `"mt"` is not necessarily mapped to 머니투데이 — `"mkmt"` contains `"mt"`
but the earlier table key `"mk"` also occurs and wins, giving 매일경제. -/
theorem alias_mt_counterexample :
    containsSub "mt".data (removeSpaces (lowerAscii (pyStrip "mkmt".data))) = true
    ∧ hasKorean (pyStrip "mkmt".data) = false
    ∧ normalize_press_name "mkmt".data [] = "매일경제".data
    ∧ "매일경제".data ≠ "머니투데이".data :=
  ⟨by decide, by decide, by decide, by decide⟩

theorem firstAlias_of_exists_hit (s : List Char) :
    ∀ (pre rest : List (List Char × List Char)),
      (∃ p ∈ pre, containsSub p.1 s = true) →
      ∃ v, firstAlias s (pre ++ rest) = some v ∧ v ∈ pre.map Prod.snd := by
  intro pre
  induction pre with
  | nil =>
    intro rest h
    rcases h with ⟨p, hp, _⟩
    exact absurd hp (List.not_mem_nil p)
  | cons q qs ih =>
    intro rest h
    by_cases hq : containsSub q.1 s = true
    · cases q with
      | mk q1 q2 =>
        refine ⟨q2, ?_, List.mem_cons_self q2 _⟩
        simp [firstAlias, hq]
    · have h' : ∃ p ∈ qs, containsSub p.1 s = true := by
        rcases h with ⟨p, hp, hps⟩
        rcases List.mem_cons.mp hp with rfl | hp'
        · exact absurd hps hq
        · exact ⟨p, hp', hps⟩
      rcases ih rest h' with ⟨v, hv1, hv2⟩
      cases q with
      | mk q1 q2 =>
        have hq' : containsSub q1 s = false := by
          cases hc : containsSub q1 s
          · rfl
          · exact absurd hc hq
        refine ⟨v, ?_, List.mem_cons_of_mem q2 hv2⟩
        simp [firstAlias, hq', hv1]

/-- C10 (amended): alias matching is by substring containment
(`containsSub n h` holds exactly when `n` occurs contiguously inside `h`),
and among the keys that occur, the first in table iteration order wins — so a
Korean-free label containing `"mt"` maps to 머니투데이 exactly when none of
the earlier keys (`yna`, `yonhap`, `mk`, `hankyung`) also occurs in it. -/
theorem alias_containment_first_wins :
    (∀ n h : List Char, containsSub n h = true ↔ ∃ l r, h = l ++ (n ++ r))
    ∧ (∀ raw netloc : List Char,
        ¬(pyStrip raw ≠ [] ∧ hasKorean (pyStrip raw) = true) →
        containsSub "mt".data (removeSpaces (lowerAscii (pyStrip raw))) = true →
        (normalize_press_name raw netloc = "머니투데이".data ↔
          (containsSub "yna".data (removeSpaces (lowerAscii (pyStrip raw))) = false
          ∧ containsSub "yonhap".data (removeSpaces (lowerAscii (pyStrip raw))) = false
          ∧ containsSub "mk".data (removeSpaces (lowerAscii (pyStrip raw))) = false
          ∧ containsSub "hankyung".data
              (removeSpaces (lowerAscii (pyStrip raw))) = false))) := by
  constructor
  · exact fun n h => containsSub_iff n h
  · intro raw netloc hnk hmt
    have hg := normalize_guard_false raw hnk
    constructor
    · intro heq
      have key_false : ∀ p ∈ ([("yna".data, "연합뉴스".data),
          ("yonhap".data, "연합뉴스".data), ("mk".data, "매일경제".data),
          ("hankyung".data, "한국경제".data)] : List (List Char × List Char)),
          containsSub p.1 (removeSpaces (lowerAscii (pyStrip raw))) = true → False := by
        intro p hp hps
        rcases firstAlias_of_exists_hit (removeSpaces (lowerAscii (pyStrip raw)))
          [("yna".data, "연합뉴스".data), ("yonhap".data, "연합뉴스".data),
           ("mk".data, "매일경제".data), ("hankyung".data, "한국경제".data)]
          [("mt".data, "머니투데이".data), ("sedaily".data, "서울경제".data),
           ("etnews".data, "전자신문".data), ("heraldcorp".data, "헤럴드경제".data),
           ("chosunbiz".data, "조선비즈".data), ("asiae".data, "아시아경제".data)]
          ⟨p, hp, hps⟩ with ⟨v, hfa, hv⟩
        have hfa' : firstAlias (removeSpaces (lowerAscii (pyStrip raw)))
            PRESS_NAME_MAP = some v := hfa
        have hnm : normalize_press_name raw netloc = v := by
          simp [normalize_press_name, hg, hfa']
        rw [hnm] at heq
        simp only [List.map_cons, List.map_nil, List.mem_cons,
          List.not_mem_nil, or_false] at hv
        rcases hv with rfl | rfl | rfl | rfl
        · exact absurd heq (by decide)
        · exact absurd heq (by decide)
        · exact absurd heq (by decide)
        · exact absurd heq (by decide)
      refine ⟨?_, ?_, ?_, ?_⟩
      · cases hc : containsSub "yna".data (removeSpaces (lowerAscii (pyStrip raw)))
        · rfl
        · exact (key_false ("yna".data, "연합뉴스".data) (by simp) hc).elim
      · cases hc : containsSub "yonhap".data (removeSpaces (lowerAscii (pyStrip raw)))
        · rfl
        · exact (key_false ("yonhap".data, "연합뉴스".data) (by simp) hc).elim
      · cases hc : containsSub "mk".data (removeSpaces (lowerAscii (pyStrip raw)))
        · rfl
        · exact (key_false ("mk".data, "매일경제".data) (by simp) hc).elim
      · cases hc : containsSub "hankyung".data (removeSpaces (lowerAscii (pyStrip raw)))
        · rfl
        · exact (key_false ("hankyung".data, "한국경제".data) (by simp) hc).elim
    · rintro ⟨h1, h2, h3, h4⟩
      have hsplit : PRESS_NAME_MAP
          = [("yna".data, "연합뉴스".data), ("yonhap".data, "연합뉴스".data),
             ("mk".data, "매일경제".data), ("hankyung".data, "한국경제".data)]
            ++ ("mt".data, "머니투데이".data)
              :: [("sedaily".data, "서울경제".data), ("etnews".data, "전자신문".data),
                  ("heraldcorp".data, "헤럴드경제".data),
                  ("chosunbiz".data, "조선비즈".data),
                  ("asiae".data, "아시아경제".data)] := rfl
      have hfa : firstAlias (removeSpaces (lowerAscii (pyStrip raw)))
          PRESS_NAME_MAP = some "머니투데이".data := by
        rw [hsplit]
        apply firstAlias_of_split _ _ _ _ _ hmt
        intro p hp
        simp only [List.mem_cons, List.not_mem_nil, or_false] at hp
        rcases hp with rfl | rfl | rfl | rfl
        · exact h1
        · exact h2
        · exact h3
        · exact h4
      simp [normalize_press_name, hg, hfa]

theorem alias_containment_first_wins_witness :
    normalize_press_name "ztmtz".data [] = "머니투데이".data
    ∧ (containsSub "yna".data (removeSpaces (lowerAscii (pyStrip "ztmtz".data))) = false
      ∧ containsSub "yonhap".data
          (removeSpaces (lowerAscii (pyStrip "ztmtz".data))) = false
      ∧ containsSub "mk".data (removeSpaces (lowerAscii (pyStrip "ztmtz".data))) = false
      ∧ containsSub "hankyung".data
          (removeSpaces (lowerAscii (pyStrip "ztmtz".data))) = false) :=
  ⟨(alias_containment_first_wins.2 "ztmtz".data [] (by decide) (by decide)).mpr
     ⟨by decide, by decide, by decide, by decide⟩,
   (alias_containment_first_wins.2 "ztmtz".data [] (by decide) (by decide)).mp
     (by decide)⟩

end PRRadar
